import Mathlib

/-!
Formalisation of the ticket-based read/write lock implemented in
src/third_party/wiredtiger/src/support/mtx_rw.c.

The lock word of WT_RWLOCK packs four uint16 counters (writers, readers,
next, writers_active) into one 64-bit word.  We model the word as a
structure of natural numbers whose field values are the stored 16-bit
contents; every arithmetic update takes `% 65536` exactly where the C
code's uint16_t arithmetic wraps.  The try paths are modelled as pure
functions returning the C return code together with the post value of the
lock word (in the sequential embedding the compare-and-swap succeeds
whenever the precondition check passed, since no concurrent writer can
intervene).  The blocking paths and full concurrency are modelled later in
this file by an explicit interleaving transition system.
-/

/-- Lock word of WT_RWLOCK: the four uint16 fields, in declaration order
`writers` (now serving for writers), `readers` (now serving for readers),
`next` (next available ticket), `writers_active` (waiting/holding writers,
used by the read-spin backoff heuristic). -/
structure LockState where
  writers : Nat
  readers : Nat
  next : Nat
  writers_active : Nat
deriving DecidableEq

/-- POSIX EBUSY as on Linux; the algorithm only relies on it being a
nonzero return code distinct from success 0. -/
def EBUSY : Nat := 16

/-- Effect of __wt_rwlock_init: `l->u = 0`, i.e. all four fields zero. -/
def wt_rwlock_init : LockState := ⟨0, 0, 0, 0⟩

/-- Embedding of __wt_try_readlock (mtx_rw.c lines 145-170).  The check
`old.s.readers != old.s.next` fails with EBUSY; otherwise the replacement
value sets `readers` and `next` both to `old.s.next + 1` (uint16, hence
mod 2^16) and the CAS installs it.  Returns (return code, lock word). -/
def wt_try_readlock (l : LockState) : Nat × LockState :=
  if l.readers ≠ l.next then (EBUSY, l)
  else (0, { l with readers := (l.next + 1) % 65536, next := (l.next + 1) % 65536 })

/-- Embedding of __wt_try_writelock (mtx_rw.c lines 260-283).  The check
`old.s.writers != old.s.next` fails with EBUSY; otherwise the replacement
value increments `next` and `writers_active` (uint16 wrap) and the CAS
installs it. -/
def wt_try_writelock (l : LockState) : Nat × LockState :=
  if l.writers ≠ l.next then (EBUSY, l)
  else (0, { l with next := (l.next + 1) % 65536,
                    writers_active := (l.writers_active + 1) % 65536 })

/-- Embedding of __wt_readunlock (mtx_rw.c lines 244-254): atomically add
one to the uint16 `writers` field. -/
def wt_readunlock (l : LockState) : LockState :=
  { l with writers := (l.writers + 1) % 65536 }

/-- Embedding of __wt_writeunlock (mtx_rw.c lines 328-356): atomically
subtract one from uint16 `writers_active` (wrapping subtraction, written
here as adding 65535 mod 2^16), then store incremented `writers` and
`readers` with a plain store of the writers/readers half of the word;
`next` is not touched. -/
def wt_writeunlock (l : LockState) : LockState :=
  { l with writers := (l.writers + 1) % 65536,
           readers := (l.readers + 1) % 65536,
           writers_active := (l.writers_active + 65535) % 65536 }

/-- Embedding of __wt_rwlock_islocked (mtx_rw.c lines 363-369). -/
def wt_rwlock_islocked (l : LockState) : Bool :=
  (l.writers != l.next) || (l.readers != l.next)

/-- A lock word is otherwise idle when nobody holds or awaits the lock:
all three ticket counters agree and no writer is active. -/
def Idle (l : LockState) : Prop :=
  l.writers = l.readers ∧ l.readers = l.next ∧ l.writers_active = 0

instance (l : LockState) : Decidable (Idle l) := by
  unfold Idle; infer_instance

/-- One write round trip: a successful try_write followed by its
write_unlock. -/
def wCycle (l : LockState) : LockState := wt_writeunlock (wt_try_writelock l).2

/-- Iterated write round trips, used to express an arbitrarily long
write / write_unlock alternation. -/
def wCycleN : Nat → LockState → LockState
  | 0, l => l
  | n + 1, l => wCycleN n (wCycle l)

theorem idle_try_writelock {l : LockState} (h : Idle l) :
    (wt_try_writelock l).1 = 0 ∧
    (wt_try_writelock l).2 =
      { l with next := (l.next + 1) % 65536,
               writers_active := (l.writers_active + 1) % 65536 } := by
  obtain ⟨h1, h2, h3⟩ := h
  unfold wt_try_writelock
  rw [if_neg]
  · exact ⟨rfl, rfl⟩
  · omega

theorem idle_wCycle {l : LockState} (h : Idle l) : Idle (wCycle l) := by
  obtain ⟨h1, h2, h3⟩ := h
  unfold wCycle wt_writeunlock wt_try_writelock
  rw [if_neg (by omega)]
  refine ⟨?_, ?_, ?_⟩ <;> simp <;> omega

/-- C2: for every lock state, try_read succeeds exactly when
`readers == next`; on success the resulting state has `readers` and `next`
both equal to the old `next + 1` modulo 2^16 with `writers` and
`writers_active` unchanged, and on any other state it returns EBUSY with
the lock word untouched. -/
theorem try_readlock_spec (l : LockState) :
    ((wt_try_readlock l).1 = 0 ↔ l.readers = l.next) ∧
    (l.readers = l.next →
      (wt_try_readlock l).2 =
        ⟨l.writers, (l.next + 1) % 65536, (l.next + 1) % 65536, l.writers_active⟩) ∧
    (l.readers ≠ l.next → wt_try_readlock l = (EBUSY, l)) := by
  unfold wt_try_readlock
  by_cases h : l.readers = l.next
  · rw [if_neg (by omega)]
    exact ⟨iff_of_true rfl h, fun _ => rfl, fun hc => absurd h hc⟩
  · rw [if_pos h]
    refine ⟨iff_of_false ?_ h, fun hc => absurd hc h, fun _ => rfl⟩
    simp [EBUSY]

theorem try_readlock_spec_witness :
    (wt_try_readlock ⟨7, 3, 3, 0⟩).2 = ⟨7, 4, 4, 0⟩ ∧
    wt_try_readlock ⟨0, 1, 0, 0⟩ = (EBUSY, ⟨0, 1, 0, 0⟩) :=
  ⟨(try_readlock_spec ⟨7, 3, 3, 0⟩).2.1 rfl,
   (try_readlock_spec ⟨0, 1, 0, 0⟩).2.2 (by decide)⟩

/-- C3: for every lock state, try_write succeeds exactly when
`writers == next`; on success the resulting state has `next` and
`writers_active` each incremented by one modulo 2^16 with `writers` and
`readers` unchanged, and on any other state it returns EBUSY with the
lock word untouched. -/
theorem try_writelock_spec (l : LockState) :
    ((wt_try_writelock l).1 = 0 ↔ l.writers = l.next) ∧
    (l.writers = l.next →
      (wt_try_writelock l).2 =
        ⟨l.writers, l.readers, (l.next + 1) % 65536, (l.writers_active + 1) % 65536⟩) ∧
    (l.writers ≠ l.next → wt_try_writelock l = (EBUSY, l)) := by
  unfold wt_try_writelock
  by_cases h : l.writers = l.next
  · rw [if_neg (by omega)]
    exact ⟨iff_of_true rfl h, fun _ => rfl, fun hc => absurd h hc⟩
  · rw [if_pos h]
    refine ⟨iff_of_false ?_ h, fun hc => absurd hc h, fun _ => rfl⟩
    simp [EBUSY]

theorem try_writelock_spec_witness :
    (wt_try_writelock ⟨2, 2, 2, 1⟩).2 = ⟨2, 2, 3, 2⟩ ∧
    wt_try_writelock ⟨1, 2, 2, 0⟩ = (EBUSY, ⟨1, 2, 2, 0⟩) :=
  ⟨(try_writelock_spec ⟨2, 2, 2, 1⟩).2.1 rfl,
   (try_writelock_spec ⟨1, 2, 2, 0⟩).2.2 (by decide)⟩

/-- C8: for every lock state, read_unlock increments the `writers` field
by exactly one modulo 2^16 and leaves `readers`, `next` and
`writers_active` unchanged. -/
theorem readunlock_effect (l : LockState) :
    wt_readunlock l = ⟨(l.writers + 1) % 65536, l.readers, l.next, l.writers_active⟩ :=
  rfl

/-- C9: in the sequential embedding, a busy return from try_read or
try_write has no effect on any of the four fields of the lock word. -/
theorem try_busy_frame (l : LockState) :
    ((wt_try_readlock l).1 ≠ 0 → wt_try_readlock l = (EBUSY, l)) ∧
    ((wt_try_writelock l).1 ≠ 0 → wt_try_writelock l = (EBUSY, l)) := by
  constructor
  · intro h
    by_cases hr : l.readers = l.next
    · refine absurd ?_ h
      unfold wt_try_readlock
      rw [if_neg (fun hc => hc hr)]
    · unfold wt_try_readlock
      rw [if_pos hr]
  · intro h
    by_cases hw : l.writers = l.next
    · refine absurd ?_ h
      unfold wt_try_writelock
      rw [if_neg (fun hc => hc hw)]
    · unfold wt_try_writelock
      rw [if_pos hw]

theorem try_busy_frame_witness :
    wt_try_readlock ⟨1, 1, 0, 0⟩ = (EBUSY, ⟨1, 1, 0, 0⟩) ∧
    wt_try_writelock ⟨1, 1, 0, 0⟩ = (EBUSY, ⟨1, 1, 0, 0⟩) :=
  ⟨(try_busy_frame ⟨1, 1, 0, 0⟩).1 (by decide),
   (try_busy_frame ⟨1, 1, 0, 0⟩).2 (by decide)⟩

/-- C10: for every lock state, write_unlock leaves `next` unchanged (its
final store writes only the writers/readers half of the word) and its net
effect is exactly: `writers` and `readers` incremented by one and
`writers_active` decremented by one, each modulo 2^16.  The second
conjunct expresses the wrapping decrement abstractly: adding one back to
the new `writers_active` returns the old value modulo 2^16. -/
theorem writeunlock_effect (l : LockState) :
    wt_writeunlock l =
      ⟨(l.writers + 1) % 65536, (l.readers + 1) % 65536, l.next,
       (l.writers_active + 65535) % 65536⟩ ∧
    ((wt_writeunlock l).writers_active + 1) % 65536 = l.writers_active % 65536 := by
  constructor
  · rfl
  · show ((l.writers_active + 65535) % 65536 + 1) % 65536 = l.writers_active % 65536
    omega

/-- C5: on any otherwise-idle lock state (`writers == readers == next`,
`writers_active == 0`), a write acquisition always succeeds immediately
(try_write never returns busy on such a state) and the following
write_unlock restores an idle state, so an arbitrarily long alternation
write, write_unlock, write, write_unlock, ... succeeds immediately at
every step. -/
theorem write_cycle_idle (l : LockState) (h : Idle l) :
    ∀ n, (wt_try_writelock (wCycleN n l)).1 = 0 ∧ Idle (wCycleN n l) := by
  have key : ∀ n m, Idle m → (wt_try_writelock (wCycleN n m)).1 = 0 ∧ Idle (wCycleN n m) := by
    intro n
    induction n with
    | zero => exact fun m hm => ⟨(idle_try_writelock hm).1, hm⟩
    | succ k ih =>
        intro m hm
        have : wCycleN (k + 1) m = wCycleN k (wCycle m) := rfl
        rw [this]
        exact ih (wCycle m) (idle_wCycle hm)
  exact fun n => key n l h

theorem write_cycle_idle_witness :
    (wt_try_writelock (wCycleN 3 ⟨5, 5, 5, 0⟩)).1 = 0 ∧ Idle (wCycleN 3 ⟨5, 5, 5, 0⟩) :=
  write_cycle_idle ⟨5, 5, 5, 0⟩ (by decide) 3

/-!
Interleaving semantics.  Each thread that has entered one of the lock
operations is represented by a `ThreadOp`.  A blocking reader first
fetch-and-adds `next` (becoming `rwait t` with its ticket `t`), spins
until the stored 16-bit `readers` equals its 16-bit ticket, then
increments `readers` and holds (`rhold t`); it releases by incrementing
`writers` (the op becomes `done t`).  A blocking writer fetch-and-adds
`next` and `writers_active` (becoming `wwait t`), spins until the 16-bit
`writers` equals its 16-bit ticket, holds (`whold t`), and releases by
incrementing `writers` and `readers` and decrementing `writers_active`.
The try variants perform the whole acquisition in one atomic step (the
compare-and-swap); a failing try changes nothing and is therefore not an
action of the system.

Ghost instrumentation: the `Nat` fields of the configuration's lock and
the tickets grow without bound, counting every issue; the physical uint16
contents of the word are their images under `proj` (reduction mod 2^16).
Every guard of `execStep` compares values mod 2^16, exactly as the C code
compares the stored uint16 fields, and every update is an increment, so
the physical word evolves exactly as in the C code.
-/

/-- State of one thread's current lock operation, tagged with its ghost
(unwrapped) ticket.  `done` marks a completed acquire/release pair; the
retired entry is kept so that list positions are stable and a ticket can
be recovered from its position. -/
inductive ThreadOp where
  | rwait (t : Nat)
  | rhold (t : Nat)
  | wwait (t : Nat)
  | whold (t : Nat)
  | done (t : Nat)
deriving DecidableEq

def ThreadOp.ticket : ThreadOp → Nat
  | .rwait t => t
  | .rhold t => t
  | .wwait t => t
  | .whold t => t
  | .done t => t

def isRHold : ThreadOp → Bool
  | .rhold _ => true
  | _ => false

def isWHold : ThreadOp → Bool
  | .whold _ => true
  | _ => false

def isWaitOp : ThreadOp → Bool
  | .rwait _ => true
  | .wwait _ => true
  | _ => false

def isDoneOp : ThreadOp → Bool
  | .done _ => true
  | _ => false

/-- A writer's op that has been counted into `writers_active` and not yet
released. -/
def isWriterLive : ThreadOp → Bool
  | .wwait _ => true
  | .whold _ => true
  | _ => false

def isHold (op : ThreadOp) : Bool := isRHold op || isWHold op

/-- An operation still in flight (issued a ticket, not fully released). -/
def isActiveOp (op : ThreadOp) : Bool := !(isDoneOp op)

/-- A configuration: the ghost lock word plus the list of thread
operations, newest first. -/
structure Conf where
  lock : LockState
  ops : List ThreadOp
deriving DecidableEq

/-- The physical uint16 contents of the lock word obtained from the ghost
counters. -/
def proj (l : LockState) : LockState :=
  ⟨l.writers % 65536, l.readers % 65536, l.next % 65536, l.writers_active % 65536⟩

/-- One atomic step by some thread.  Indices in `acqR`/`relR`/`acqW`/
`relW` pick the thread (position in `ops`) performing the step. -/
inductive LAction where
  | startR
  | acqR (i : Nat)
  | relR (i : Nat)
  | startW
  | acqW (i : Nat)
  | relW (i : Nat)
  | tryR
  | tryW
deriving DecidableEq

/-- Executable small-step semantics of the lock.
`startR`: __wt_readlock's fetch-and-add of `next` (line 213).
`acqR i`: exit of the spin loop `ticket != l->s.readers` (line 214) plus
the `++l->s.readers` (line 231) of the waiting reader at position `i`.
`relR i`: __wt_readunlock's add of 1 to `writers` (line 253).
`startW`: __wt_writelock's fetch-and-add of `next` and of
`writers_active` (lines 302-303).
`acqW i`: exit of the spin loop `ticket != l->s.writers` (line 304).
`relW i`: __wt_writeunlock (lines 335-353).
`tryR`/`tryW`: a successful __wt_try_readlock/__wt_try_writelock as one
atomic compare-and-swap.  All comparisons are between stored uint16
values, i.e. mod 2^16 on the ghost counters. -/
def execStep : LAction → Conf → Option Conf
  | .startR, ⟨l, ops⟩ =>
      some ⟨{ l with next := l.next + 1 }, .rwait l.next :: ops⟩
  | .acqR i, ⟨l, ops⟩ =>
      match ops[i]? with
      | some (.rwait t) =>
          if t % 65536 = l.readers % 65536 then
            some ⟨{ l with readers := l.readers + 1 }, ops.set i (.rhold t)⟩
          else none
      | _ => none
  | .relR i, ⟨l, ops⟩ =>
      match ops[i]? with
      | some (.rhold t) =>
          some ⟨{ l with writers := l.writers + 1 }, ops.set i (.done t)⟩
      | _ => none
  | .startW, ⟨l, ops⟩ =>
      some ⟨{ l with next := l.next + 1, writers_active := l.writers_active + 1 },
            .wwait l.next :: ops⟩
  | .acqW i, ⟨l, ops⟩ =>
      match ops[i]? with
      | some (.wwait t) =>
          if t % 65536 = l.writers % 65536 then some ⟨l, ops.set i (.whold t)⟩
          else none
      | _ => none
  | .relW i, ⟨l, ops⟩ =>
      match ops[i]? with
      | some (.whold t) =>
          some ⟨{ l with writers := l.writers + 1, readers := l.readers + 1,
                         writers_active := l.writers_active - 1 },
                ops.set i (.done t)⟩
      | _ => none
  | .tryR, ⟨l, ops⟩ =>
      if l.readers % 65536 = l.next % 65536 then
        some ⟨{ l with readers := l.readers + 1, next := l.next + 1 },
              .rhold l.next :: ops⟩
      else none
  | .tryW, ⟨l, ops⟩ =>
      if l.writers % 65536 = l.next % 65536 then
        some ⟨{ l with next := l.next + 1, writers_active := l.writers_active + 1 },
              .whold l.next :: ops⟩
      else none

/-- Run a list of actions, failing if some action is not enabled. -/
def run : List LAction → Conf → Option Conf
  | [], c => some c
  | a :: as, c => (execStep a c).bind (run as)

/-- The initialized configuration: all-zero lock word, no threads. -/
def init0 : Conf := ⟨wt_rwlock_init, []⟩

/-- A configuration reachable by some interleaving of callers. -/
def Reach (c : Conf) : Prop := ∃ as, run as init0 = some c

/-- Number of operations in flight (tickets issued but not yet fully
released). -/
def activeCount (c : Conf) : Nat := c.ops.countP isActiveOp

/-- Bounded step: as `execStep`, but refusing interleavings that put 2^16
or more operations in flight at once (the ticket-wrap hazard that the
source documents at mtx_rw.c lines 104-112). -/
def execStepB (a : LAction) (c : Conf) : Option Conf :=
  (execStep a c).bind (fun c' => if activeCount c' ≤ 65535 then some c' else none)

def runB : List LAction → Conf → Option Conf
  | [], c => some c
  | a :: as, c => (execStepB a c).bind (runB as)

/-- A configuration reachable by an interleaving that never has 2^16 or
more operations in flight. -/
def BReach (c : Conf) : Prop := ∃ as, runB as init0 = some c

/-- LActions available to sequential (non-overlapping, whole-call)
operation sequences: each blocking acquire that completes without waiting
is indistinguishable from the successful try variant. -/
def seqAction : LAction → Bool
  | .tryR => true
  | .tryW => true
  | .relR _ => true
  | .relW _ => true
  | _ => false

/-- Reachable by a sequential operation sequence (no wrap bound). -/
def SeqReach (c : Conf) : Prop :=
  ∃ as, (∀ a ∈ as, seqAction a = true) ∧ run as init0 = some c

/-- Reachable by a sequential operation sequence that keeps fewer than
2^16 operations in flight. -/
def SeqBReach (c : Conf) : Prop :=
  ∃ as, (∀ a ∈ as, seqAction a = true) ∧ runB as init0 = some c

/-- No thread currently holds the lock (shared or exclusive). -/
def NoHolder (c : Conf) : Prop := ∀ op ∈ c.ops, isHold op = false

/-- No thread currently holds the lock exclusively. -/
def NoWriterHold (c : Conf) : Prop := ∀ op ∈ c.ops, isWHold op = false

/-- LActions that complete a write acquisition (exit of __wt_writelock's
spin loop, or a successful __wt_try_writelock). -/
def writeAcqA : LAction → Bool
  | .acqW _ => true
  | .tryW => true
  | _ => false

/-- LActions that complete a read acquisition (exit of __wt_readlock's spin
loop, or a successful __wt_try_readlock; __wt_readlock_spin acquires via
__wt_try_readlock). -/
def readAcqA : LAction → Bool
  | .acqR _ => true
  | .tryR => true
  | _ => false

theorem getq_lt {α : Type} {l : List α} {i : Nat} {a : α}
    (h : l[i]? = some a) : i < l.length :=
  (List.getElem?_eq_some.mp h).1

theorem mem_of_getq {α : Type} {l : List α} {i : Nat} {a : α}
    (h : l[i]? = some a) : a ∈ l := by
  obtain ⟨hl, he⟩ := List.getElem?_eq_some.mp h
  exact he ▸ List.getElem_mem hl

/-- Replacing the element at one position shifts `countP` by the membership
changes at exactly that position. -/
theorem countP_set_swap {α : Type} (p : α → Bool) :
    ∀ (l : List α) (i : Nat) (a b : α), l[i]? = some a →
      (l.set i b).countP p + (if p a then 1 else 0) =
        l.countP p + (if p b then 1 else 0) := by
  intro l
  induction l with
  | nil => intro i a b h; simp at h
  | cons x xs ih =>
      intro i a b h
      match i with
      | 0 =>
          simp only [List.getElem?_cons_zero, Option.some.injEq] at h
          subst h
          simp only [List.set]
          rw [List.countP_cons, List.countP_cons]
          omega
      | j + 1 =>
          simp only [List.getElem?_cons_succ] at h
          simp only [List.set]
          rw [List.countP_cons, List.countP_cons]
          have := ih j a b h
          omega

theorem countP_compl {α : Type} (p q : α → Bool) (hpq : ∀ x, q x = !(p x)) :
    ∀ l : List α, l.countP q + l.countP p = l.length := by
  intro l
  induction l with
  | nil => simp
  | cons x xs ih =>
      rw [List.countP_cons, List.countP_cons, hpq x]
      cases hx : p x <;> simp [hx] <;> omega

theorem countP_or_disjoint {α : Type} (p q : α → Bool)
    (hpq : ∀ x, p x = true → q x = false) :
    ∀ l : List α, l.countP (fun x => p x || q x) = l.countP p + l.countP q := by
  intro l
  induction l with
  | nil => simp
  | cons x xs ih =>
      rw [List.countP_cons, List.countP_cons, List.countP_cons, ih]
      cases hx : p x
      · simp
        omega
      · rw [hpq x hx]
        simp
        omega

theorem countP_pos_of_getq {α : Type} {p : α → Bool} {l : List α} {i : Nat} {a : α}
    (h : l[i]? = some a) (hp : p a = true) : 0 < l.countP p :=
  List.countP_pos_iff.mpr ⟨a, mem_of_getq h, hp⟩

/-!
The worked example from the source comment (mtx_rw.c lines 75-89), claim
C4.  From the all-zero state: three blocking readers enter and acquire
(tickets 0, 1, 2); a writer enters (ticket 3) and blocks; the readers
release in ticket order 2, 0, 1.  After the three enters and acquisitions
the ops list is [wwait 3, rhold 2, rhold 1, rhold 0] (newest first), so
the three releases address positions 1, 3, 2, and the blocked writer is
the op at position 0. -/

def c4start : List LAction :=
  [.startR, .startR, .startR, .acqR 2, .acqR 1, .acqR 0, .startW]

def c4s0 : Option Conf := run c4start init0

def c4s1 : Option Conf := c4s0.bind (execStep (.relR 1))

def c4s2 : Option Conf := c4s1.bind (execStep (.relR 3))

def c4s3 : Option Conf := c4s2.bind (execStep (.relR 2))

/-- Claim C4 as stated: the trace exists, the writer (position 0, ticket
3) is blocked after entering and stays blocked after the first and second
read releases, the releases drive `writers` to 1, 2, 3, the writer
unblocks exactly after the third release, and the state then satisfies
writers == next == 3 and readers == 3. -/
def claimC4 : Prop :=
  c4s0.map (fun c => (execStep (.acqW 0) c).isSome) = some false ∧
  c4s1.map (fun c => c.lock.writers) = some 1 ∧
  c4s1.map (fun c => (execStep (.acqW 0) c).isSome) = some false ∧
  c4s2.map (fun c => c.lock.writers) = some 2 ∧
  c4s2.map (fun c => (execStep (.acqW 0) c).isSome) = some false ∧
  c4s3.map (fun c => c.lock.writers) = some 3 ∧
  c4s3.map (fun c => (execStep (.acqW 0) c).isSome) = some true ∧
  c4s3.map (fun c => c.lock.readers) = some 3 ∧
  c4s3.map (fun c => c.lock.next) = some 3

/-- C4 counterexample: the claim is false on the code because after the
three reader acquisitions and the writer's ticket allocation four tickets
have been issued, so `next` is 4, not 3, when the writer unblocks (the
source's own table, mtx_rw.c lines 77-86, shows writers=3 readers=3
next=4 at that point). -/
theorem scenario_cx : ¬ claimC4 := by
  unfold claimC4 c4s3 c4s2 c4s1 c4s0 c4start
  decide

/-- C4 amended: as claim C4, but when the writer unblocks after the third
read release the state has writers == 3 == the writer's ticket is served
next, readers == 3, and next == 4 (four tickets issued). -/
theorem scenario_amended :
    c4s0.map (fun c => (execStep (.acqW 0) c).isSome) = some false ∧
    c4s1.map (fun c => c.lock.writers) = some 1 ∧
    c4s1.map (fun c => (execStep (.acqW 0) c).isSome) = some false ∧
    c4s2.map (fun c => c.lock.writers) = some 2 ∧
    c4s2.map (fun c => (execStep (.acqW 0) c).isSome) = some false ∧
    c4s3.map (fun c => c.lock.writers) = some 3 ∧
    c4s3.map (fun c => (execStep (.acqW 0) c).isSome) = some true ∧
    c4s3.map (fun c => c.lock.readers) = some 3 ∧
    c4s3.map (fun c => c.lock.next) = some 4 ∧
    c4s3.map (fun c => c.ops[0]?) = some (some (ThreadOp.wwait 3)) := by
  unfold c4s3 c4s2 c4s1 c4s0 c4start
  decide

/-- Counting invariants of the ghost configuration, maintained by every
interleaving: `next` counts issued tickets (one per list entry, newest
first), `writers` counts completed releases, `readers` counts completed
releases plus live read holders, `writers_active` dominates the number of
live writer operations, and the ghost ticket of the entry at position `i`
is `length - 1 - i` (tickets are issued in order and the list grows at the
front). -/
structure InvCount (c : Conf) : Prop where
  nextEq : c.lock.next = c.ops.length
  writersEq : c.lock.writers = c.ops.countP isDoneOp
  readersEq : c.lock.readers = c.ops.countP isDoneOp + c.ops.countP isRHold
  waGe : c.ops.countP isWriterLive ≤ c.lock.writers_active
  ticketIdx : ∀ i op, c.ops[i]? = some op → op.ticket = c.ops.length - 1 - i

theorem ticketIdx_set {ops : List ThreadOp} {i : Nat} {a b : ThreadOp}
    (hT : ∀ j op, ops[j]? = some op → op.ticket = ops.length - 1 - j)
    (ha : ops[i]? = some a) (hab : b.ticket = a.ticket) :
    ∀ j op, (ops.set i b)[j]? = some op → op.ticket = (ops.set i b).length - 1 - j := by
  intro j op hj
  rw [List.length_set]
  by_cases hij : i = j
  · subst hij
    rw [List.getElem?_set_self (getq_lt ha)] at hj
    injection hj with hj
    subst hj
    rw [hab]
    exact hT i a ha
  · rw [List.getElem?_set_ne hij] at hj
    exact hT j op hj

theorem ticketIdx_cons {ops : List ThreadOp} {x : ThreadOp}
    (hT : ∀ j op, ops[j]? = some op → op.ticket = ops.length - 1 - j)
    (hx : x.ticket = ops.length) :
    ∀ j op, (x :: ops)[j]? = some op → op.ticket = (x :: ops).length - 1 - j := by
  intro j op hj
  rw [List.length_cons]
  match j with
  | 0 =>
      rw [List.getElem?_cons_zero] at hj
      injection hj with hj
      subst hj
      omega
  | k + 1 =>
      rw [List.getElem?_cons_succ] at hj
      have h1 := hT k op hj
      have h2 := getq_lt hj
      omega

theorem invCount_step {a : LAction} {c c' : Conf} (hI : InvCount c)
    (h : execStep a c = some c') : InvCount c' := by
  obtain ⟨⟨w, r, n, wa⟩, ops⟩ := c
  obtain ⟨hNext, hW, hR, hWa, hT⟩ := hI
  simp only at hNext hW hR hWa hT
  cases a with
  | startR =>
      simp only [execStep] at h
      cases h
      refine ⟨?_, ?_, ?_, ?_, ?_⟩
      · simp only [List.length_cons]; omega
      · simpa [List.countP_cons, isDoneOp] using hW
      · simp only [List.countP_cons, isDoneOp, isRHold]; simpa using hR
      · simpa [List.countP_cons, isWriterLive] using hWa
      · exact ticketIdx_cons hT (by simpa [ThreadOp.ticket] using hNext)
  | startW =>
      simp only [execStep] at h
      cases h
      refine ⟨?_, ?_, ?_, ?_, ?_⟩
      · simp only [List.length_cons]; omega
      · simpa [List.countP_cons, isDoneOp] using hW
      · simp only [List.countP_cons, isDoneOp, isRHold]; simpa using hR
      · simp only [List.countP_cons, isWriterLive]; simp; omega
      · exact ticketIdx_cons hT (by simpa [ThreadOp.ticket] using hNext)
  | tryR =>
      simp only [execStep] at h
      split at h
      · cases h
        refine ⟨?_, ?_, ?_, ?_, ?_⟩
        · simp only [List.length_cons]; omega
        · simpa [List.countP_cons, isDoneOp] using hW
        · simp only [List.countP_cons, isDoneOp, isRHold]; simp; omega
        · simpa [List.countP_cons, isWriterLive] using hWa
        · exact ticketIdx_cons hT (by simpa [ThreadOp.ticket] using hNext)
      · exact absurd h (by simp)
  | tryW =>
      simp only [execStep] at h
      split at h
      · cases h
        refine ⟨?_, ?_, ?_, ?_, ?_⟩
        · simp only [List.length_cons]; omega
        · simpa [List.countP_cons, isDoneOp] using hW
        · simp only [List.countP_cons, isDoneOp, isRHold]; simpa using hR
        · simp only [List.countP_cons, isWriterLive]; simp; omega
        · exact ticketIdx_cons hT (by simpa [ThreadOp.ticket] using hNext)
      · exact absurd h (by simp)
  | acqR i =>
      simp only [execStep] at h
      split at h
      case _ t heq =>
        split at h
        · cases h
          have hsw1 := countP_set_swap isDoneOp ops i _ (ThreadOp.rhold t) heq
          have hsw2 := countP_set_swap isRHold ops i _ (ThreadOp.rhold t) heq
          have hsw3 := countP_set_swap isWriterLive ops i _ (ThreadOp.rhold t) heq
          simp [isDoneOp, isRHold, isWriterLive] at hsw1 hsw2 hsw3
          refine ⟨?_, ?_, ?_, ?_, ?_⟩
          · simp only [List.length_set]; omega
          · simp only; omega
          · simp only; omega
          · simp only; omega
          · exact ticketIdx_set hT heq rfl
        · exact absurd h (by simp)
      all_goals exact absurd h (by simp)
  | acqW i =>
      simp only [execStep] at h
      split at h
      case _ t heq =>
        split at h
        · cases h
          have hsw1 := countP_set_swap isDoneOp ops i _ (ThreadOp.whold t) heq
          have hsw2 := countP_set_swap isRHold ops i _ (ThreadOp.whold t) heq
          have hsw3 := countP_set_swap isWriterLive ops i _ (ThreadOp.whold t) heq
          simp [isDoneOp, isRHold, isWriterLive] at hsw1 hsw2 hsw3
          refine ⟨?_, ?_, ?_, ?_, ?_⟩
          · simp only [List.length_set]; omega
          · simp only; omega
          · simp only; omega
          · simp only; omega
          · exact ticketIdx_set hT heq rfl
        · exact absurd h (by simp)
      all_goals exact absurd h (by simp)
  | relR i =>
      simp only [execStep] at h
      split at h
      case _ t heq =>
        cases h
        have hsw1 := countP_set_swap isDoneOp ops i _ (ThreadOp.done t) heq
        have hsw2 := countP_set_swap isRHold ops i _ (ThreadOp.done t) heq
        have hsw3 := countP_set_swap isWriterLive ops i _ (ThreadOp.done t) heq
        simp [isDoneOp, isRHold, isWriterLive] at hsw1 hsw2 hsw3
        refine ⟨?_, ?_, ?_, ?_, ?_⟩
        · simp only [List.length_set]; omega
        · simp only; omega
        · simp only; omega
        · simp only; omega
        · exact ticketIdx_set hT heq rfl
      all_goals exact absurd h (by simp)
  | relW i =>
      simp only [execStep] at h
      split at h
      case _ t heq =>
        cases h
        have hsw1 := countP_set_swap isDoneOp ops i _ (ThreadOp.done t) heq
        have hsw2 := countP_set_swap isRHold ops i _ (ThreadOp.done t) heq
        have hsw3 := countP_set_swap isWriterLive ops i _ (ThreadOp.done t) heq
        have hwl : 0 < ops.countP isWriterLive :=
          countP_pos_of_getq heq (by simp [isWriterLive])
        simp [isDoneOp, isRHold, isWriterLive] at hsw1 hsw2 hsw3
        refine ⟨?_, ?_, ?_, ?_, ?_⟩
        · simp only [List.length_set]; omega
        · simp only; omega
        · simp only; omega
        · simp only; omega
        · exact ticketIdx_set hT heq rfl
      all_goals exact absurd h (by simp)

theorem invCount_init : InvCount init0 := by
  refine ⟨?_, ?_, ?_, ?_, ?_⟩ <;> simp [init0, wt_rwlock_init]

theorem run_invCount : ∀ (as : List LAction) (c c' : Conf),
    InvCount c → run as c = some c' → InvCount c' := by
  intro as
  induction as with
  | nil =>
      intro c c' hI h
      simp only [run, Option.some.injEq] at h
      exact h ▸ hI
  | cons a as ih =>
      intro c c' hI h
      simp only [run] at h
      cases he : execStep a c with
      | none => rw [he] at h; exact Option.noConfusion h
      | some c1 =>
          rw [he] at h
          simp only [Option.some_bind] at h
          exact ih c1 c' (invCount_step hI he) h

theorem reach_invCount {c : Conf} (h : Reach c) : InvCount c := by
  obtain ⟨as, hrun⟩ := h
  exact run_invCount as init0 c invCount_init hrun

theorem done_rhold_disjoint : ∀ op : ThreadOp, isDoneOp op = true → isRHold op = false := by
  intro op h
  cases op <;> simp_all [isDoneOp, isRHold]

/-- C6: in every state reachable from the initialized all-zero state by
well-formed sequences of acquire and release steps (any interleaving),
the ghost counters — the 16-bit fields interpreted without wrap, as
counts of issued versus served tickets — satisfy writers <= next and
readers <= next: tickets are only handed out, and the serving counters
only catch up to `next`, never pass it. -/
theorem reach_counts_le (c : Conf) (h : Reach c) :
    c.lock.writers ≤ c.lock.next ∧ c.lock.readers ≤ c.lock.next := by
  obtain ⟨hNext, hW, hR, _, _⟩ := reach_invCount h
  constructor
  · rw [hW, hNext]
    exact List.countP_le_length _
  · rw [hR, hNext, ← countP_or_disjoint isDoneOp isRHold done_rhold_disjoint c.ops]
    exact List.countP_le_length _

theorem reach_counts_le_witness :
    (⟨⟨0, 0, 1, 0⟩, [ThreadOp.rwait 0]⟩ : Conf).lock.writers ≤
      (⟨⟨0, 0, 1, 0⟩, [ThreadOp.rwait 0]⟩ : Conf).lock.next ∧
    (⟨⟨0, 0, 1, 0⟩, [ThreadOp.rwait 0]⟩ : Conf).lock.readers ≤
      (⟨⟨0, 0, 1, 0⟩, [ThreadOp.rwait 0]⟩ : Conf).lock.next :=
  reach_counts_le ⟨⟨0, 0, 1, 0⟩, [ThreadOp.rwait 0]⟩ ⟨[LAction.startR], rfl⟩

/-- Full protocol invariant.  Beyond the counting clauses it orders the
ghost tickets: waiting operations are at or beyond the read serving
point, read holders are strictly before it, and an exclusive holder's
ticket is exactly the write serving point with no read holder ahead.
These ordering clauses are maintained only while fewer than 2^16
operations are in flight (no ticket wrap), i.e. along bounded runs. -/
structure InvFull (c : Conf) : Prop where
  cnt : InvCount c
  waitGe : ∀ (i : Nat) (op : ThreadOp), c.ops[i]? = some op → isWaitOp op = true →
      c.lock.readers ≤ op.ticket
  rholdLt : ∀ (i : Nat) (op : ThreadOp), c.ops[i]? = some op → isRHold op = true →
      op.ticket < c.lock.readers
  wholdEq : ∀ (i : Nat) (op : ThreadOp), c.ops[i]? = some op → isWHold op = true →
      op.ticket = c.lock.writers ∧ c.lock.readers = c.lock.writers

theorem writers_le_readers {c : Conf} (h : InvCount c) :
    c.lock.writers ≤ c.lock.readers := by
  rw [h.writersEq, h.readersEq]; omega

theorem invCount_readers_le_next {c : Conf} (h : InvCount c) :
    c.lock.readers ≤ c.lock.next := by
  rw [h.readersEq, h.nextEq, ← countP_or_disjoint isDoneOp isRHold done_rhold_disjoint c.ops]
  exact List.countP_le_length _

theorem invCount_window {c : Conf} (h : InvCount c) :
    c.lock.next = c.lock.writers + activeCount c := by
  have hc := countP_compl isDoneOp isActiveOp (fun x => rfl) c.ops
  rw [h.nextEq, h.writersEq]
  unfold activeCount
  omega

theorem ticket_lt_next {c : Conf} {i : Nat} {op : ThreadOp} (hc : InvCount c)
    (h : c.ops[i]? = some op) : op.ticket < c.lock.next := by
  have h1 := hc.ticketIdx i op h
  have h2 := getq_lt h
  rw [hc.nextEq]
  omega

theorem ticket_inj {c : Conf} {i j : Nat} {op1 op2 : ThreadOp} (hc : InvCount c)
    (h1 : c.ops[i]? = some op1) (h2 : c.ops[j]? = some op2)
    (he : op1.ticket = op2.ticket) : i = j := by
  have e1 := hc.ticketIdx i op1 h1
  have e2 := hc.ticketIdx j op2 h2
  have l1 := getq_lt h1
  have l2 := getq_lt h2
  omega

theorem acqR_ticket_eq {c : Conf} {i t : Nat} (hI : InvFull c)
    (hB : activeCount c ≤ 65535) (heq : c.ops[i]? = some (.rwait t))
    (hg : t % 65536 = c.lock.readers % 65536) : t = c.lock.readers := by
  have h1 := hI.waitGe i _ heq (by simp [isWaitOp])
  have h2 := ticket_lt_next hI.cnt heq
  have h3 := invCount_window hI.cnt
  have h4 := writers_le_readers hI.cnt
  simp only [ThreadOp.ticket] at h1 h2
  omega

theorem acqW_facts {c : Conf} {i t : Nat} (hI : InvFull c)
    (hB : activeCount c ≤ 65535) (heq : c.ops[i]? = some (.wwait t))
    (hg : t % 65536 = c.lock.writers % 65536) :
    t = c.lock.writers ∧ c.lock.readers = c.lock.writers ∧
      c.ops.countP isRHold = 0 := by
  have h1 := hI.waitGe i _ heq (by simp [isWaitOp])
  have h2 := ticket_lt_next hI.cnt heq
  have h3 := invCount_window hI.cnt
  have h4 := writers_le_readers hI.cnt
  have h5 := hI.cnt.readersEq
  have h6 := hI.cnt.writersEq
  simp only [ThreadOp.ticket] at h1 h2
  omega

theorem tryR_facts {c : Conf} (hI : InvFull c) (hB : activeCount c ≤ 65535)
    (hg : c.lock.readers % 65536 = c.lock.next % 65536) :
    c.lock.readers = c.lock.next := by
  have h1 := invCount_readers_le_next hI.cnt
  have h2 := invCount_window hI.cnt
  have h3 := writers_le_readers hI.cnt
  omega

theorem tryW_facts {c : Conf} (hI : InvFull c) (hB : activeCount c ≤ 65535)
    (hg : c.lock.writers % 65536 = c.lock.next % 65536) :
    c.lock.writers = c.lock.next ∧ c.lock.readers = c.lock.next ∧
      c.ops.countP isRHold = 0 := by
  have h1 := invCount_readers_le_next hI.cnt
  have h2 := invCount_window hI.cnt
  have h3 := writers_le_readers hI.cnt
  have h4 := hI.cnt.readersEq
  have h5 := hI.cnt.writersEq
  omega

theorem no_rhold_of_crh0 {c : Conf} (hcrh : c.ops.countP isRHold = 0) :
    ∀ op ∈ c.ops, isRHold op = false := by
  intro op hmem
  cases hr : isRHold op
  · rfl
  · exfalso
    obtain ⟨i, hi⟩ := List.mem_iff_getElem?.mp hmem
    exact absurd (countP_pos_of_getq hi hr) (by omega)

theorem acqW_noHolder {c : Conf} {i t : Nat} (hI : InvFull c)
    (hB : activeCount c ≤ 65535) (heq : c.ops[i]? = some (.wwait t))
    (hg : t % 65536 = c.lock.writers % 65536) : NoHolder c := by
  obtain ⟨ht, hre, hcrh⟩ := acqW_facts hI hB heq hg
  intro op hmem
  cases hh : isHold op
  · rfl
  exfalso
  obtain ⟨j, hj⟩ := List.mem_iff_getElem?.mp hmem
  simp only [isHold, Bool.or_eq_true] at hh
  rcases hh with hr | hw
  · exact absurd (countP_pos_of_getq hj hr) (by omega)
  · have hwE := (hI.wholdEq j op hj hw).1
    have hij : i = j :=
      ticket_inj hI.cnt heq hj (by show t = op.ticket; omega)
    rw [← hij] at hj
    rw [heq] at hj
    injection hj with hj
    rw [← hj] at hw
    simp [isWHold] at hw

theorem tryW_noHolder {c : Conf} (hI : InvFull c) (hB : activeCount c ≤ 65535)
    (hg : c.lock.writers % 65536 = c.lock.next % 65536) : NoHolder c := by
  obtain ⟨hw, hr, hcrh⟩ := tryW_facts hI hB hg
  intro op hmem
  cases hh : isHold op
  · rfl
  exfalso
  obtain ⟨j, hj⟩ := List.mem_iff_getElem?.mp hmem
  simp only [isHold, Bool.or_eq_true] at hh
  rcases hh with hrh | hwh
  · exact absurd (countP_pos_of_getq hj hrh) (by omega)
  · have hwE := (hI.wholdEq j op hj hwh).1
    have := ticket_lt_next hI.cnt hj
    omega

theorem acqR_noWriterHold {c : Conf} {i t : Nat} (hI : InvFull c)
    (hB : activeCount c ≤ 65535) (heq : c.ops[i]? = some (.rwait t))
    (hg : t % 65536 = c.lock.readers % 65536) : NoWriterHold c := by
  have ht := acqR_ticket_eq hI hB heq hg
  intro op hmem
  cases hw : isWHold op
  · rfl
  exfalso
  obtain ⟨j, hj⟩ := List.mem_iff_getElem?.mp hmem
  obtain ⟨hwE, hre⟩ := hI.wholdEq j op hj hw
  have hij : i = j :=
    ticket_inj hI.cnt heq hj (by show t = op.ticket; omega)
  rw [← hij] at hj
  rw [heq] at hj
  injection hj with hj
  rw [← hj] at hw
  simp [isWHold] at hw

theorem tryR_noWriterHold {c : Conf} (hI : InvFull c) (hB : activeCount c ≤ 65535)
    (hg : c.lock.readers % 65536 = c.lock.next % 65536) : NoWriterHold c := by
  have hr := tryR_facts hI hB hg
  intro op hmem
  cases hw : isWHold op
  · rfl
  exfalso
  obtain ⟨j, hj⟩ := List.mem_iff_getElem?.mp hmem
  obtain ⟨hwE, hre⟩ := hI.wholdEq j op hj hw
  have := ticket_lt_next hI.cnt hj
  omega

theorem invFull_step {a : LAction} {c c' : Conf} (hI : InvFull c)
    (hB : activeCount c ≤ 65535) (h : execStep a c = some c') : InvFull c' := by
  have hcnt' : InvCount c' := invCount_step hI.cnt h
  obtain ⟨⟨w, r, n, wa⟩, ops⟩ := c
  obtain ⟨hcnt, hWait, hRLt, hWEq⟩ := hI
  obtain ⟨hNext, hW, hR, hWa, hT⟩ := hcnt
  simp only at hNext hW hR hWa hT hWait hRLt hWEq
  simp only [activeCount] at hB
  have hcompl := countP_compl isDoneOp isActiveOp (fun x => rfl) ops
  have hrn : r ≤ n := by
    have := countP_or_disjoint isDoneOp isRHold done_rhold_disjoint ops
    have : List.countP (fun x => isDoneOp x || isRHold x) ops ≤ ops.length :=
      List.countP_le_length _
    omega
  cases a with
  | startR =>
      simp only [execStep] at h
      cases h
      refine ⟨hcnt', ?_, ?_, ?_⟩ <;> intro j op hj hP <;> dsimp only <;>
        match j with
        | 0 =>
            rw [List.getElem?_cons_zero] at hj
            injection hj with hj
            subst hj
            first
              | (simp only [ThreadOp.ticket]; omega)
              | simp [isRHold, isWHold] at hP
        | k + 1 =>
            rw [List.getElem?_cons_succ] at hj
            first
              | exact hWait k op hj hP
              | exact hRLt k op hj hP
              | exact hWEq k op hj hP
  | startW =>
      simp only [execStep] at h
      cases h
      refine ⟨hcnt', ?_, ?_, ?_⟩ <;> intro j op hj hP <;> dsimp only <;>
        match j with
        | 0 =>
            rw [List.getElem?_cons_zero] at hj
            injection hj with hj
            subst hj
            first
              | (simp only [ThreadOp.ticket]; omega)
              | simp [isRHold, isWHold] at hP
        | k + 1 =>
            rw [List.getElem?_cons_succ] at hj
            first
              | exact hWait k op hj hP
              | exact hRLt k op hj hP
              | exact hWEq k op hj hP
  | tryR =>
      simp only [execStep] at h
      split at h
      case _ hg =>
        cases h
        have hreq : r = n := by omega
        refine ⟨hcnt', ?_, ?_, ?_⟩ <;> intro j op hj hP <;> dsimp only <;>
          match j with
          | 0 =>
              rw [List.getElem?_cons_zero] at hj
              injection hj with hj
              subst hj
              first
                | (simp only [ThreadOp.ticket]; omega)
                | simp [isWaitOp, isWHold] at hP
          | k + 1 =>
              rw [List.getElem?_cons_succ] at hj
              have e1 := hT k op hj
              have l1 := getq_lt hj
              first
                | (have hgw := hWait k op hj hP; omega)
                | (have hgr := hRLt k op hj hP; omega)
                | (obtain ⟨hx1, hx2⟩ := hWEq k op hj hP; exact absurd rfl (by omega : ¬ (0 : Nat) = 0))
      · exact Option.noConfusion h
  | tryW =>
      simp only [execStep] at h
      split at h
      case _ hg =>
        cases h
        have hweq : w = n ∧ r = n ∧ ops.countP isRHold = 0 := by omega
        obtain ⟨hw1, hw2, hw3⟩ := hweq
        refine ⟨hcnt', ?_, ?_, ?_⟩ <;> intro j op hj hP <;> dsimp only <;>
          match j with
          | 0 =>
              rw [List.getElem?_cons_zero] at hj
              injection hj with hj
              subst hj
              first
                | (simp only [ThreadOp.ticket]; omega)
                | simp [isWaitOp, isRHold] at hP
          | k + 1 =>
              rw [List.getElem?_cons_succ] at hj
              have e1 := hT k op hj
              have l1 := getq_lt hj
              first
                | (have hgw := hWait k op hj hP; omega)
                | (have hgp := countP_pos_of_getq hj hP; omega)
                | (obtain ⟨hx1, hx2⟩ := hWEq k op hj hP; exact absurd rfl (by omega : ¬ (0 : Nat) = 0))
      · exact Option.noConfusion h
  | acqR i =>
      simp only [execStep] at h
      split at h
      case _ t heq =>
        split at h
        case isTrue hg =>
          cases h
          have et := hT i _ heq
          have lt1 := getq_lt heq
          simp only [ThreadOp.ticket] at et
          have hwr := hWait i _ heq (by simp [isWaitOp])
          simp only [ThreadOp.ticket] at hwr
          have htr : t = r := by omega
          refine ⟨hcnt', ?_, ?_, ?_⟩ <;> intro j op hj hP <;> dsimp only <;>
            by_cases hij : i = j
          · subst hij
            rw [List.getElem?_set_self (getq_lt heq)] at hj
            injection hj with hj
            subst hj
            simp [isWaitOp] at hP
          · rw [List.getElem?_set_ne hij] at hj
            have e1 := hT j op hj
            have l1 := getq_lt hj
            have := hWait j op hj hP
            omega
          · subst hij
            rw [List.getElem?_set_self (getq_lt heq)] at hj
            injection hj with hj
            subst hj
            simp only [ThreadOp.ticket]
            omega
          · rw [List.getElem?_set_ne hij] at hj
            have := hRLt j op hj hP
            omega
          · subst hij
            rw [List.getElem?_set_self (getq_lt heq)] at hj
            injection hj with hj
            subst hj
            simp [isWHold] at hP
          · rw [List.getElem?_set_ne hij] at hj
            have e1 := hT j op hj
            have l1 := getq_lt hj
            obtain ⟨hx1, hx2⟩ := hWEq j op hj hP
            exact absurd rfl (by omega : ¬ (0 : Nat) = 0)
        case isFalse => exact Option.noConfusion h
      all_goals exact Option.noConfusion h
  | acqW i =>
      simp only [execStep] at h
      split at h
      case _ t heq =>
        split at h
        case isTrue hg =>
          cases h
          have et := hT i _ heq
          have lt1 := getq_lt heq
          simp only [ThreadOp.ticket] at et
          have hwr := hWait i _ heq (by simp [isWaitOp])
          simp only [ThreadOp.ticket] at hwr
          have htw : t = w ∧ r = w ∧ ops.countP isRHold = 0 := by omega
          obtain ⟨ht1, ht2, ht3⟩ := htw
          refine ⟨hcnt', ?_, ?_, ?_⟩ <;> intro j op hj hP <;> dsimp only <;>
            by_cases hij : i = j
          · subst hij
            rw [List.getElem?_set_self (getq_lt heq)] at hj
            injection hj with hj
            subst hj
            simp [isWaitOp] at hP
          · rw [List.getElem?_set_ne hij] at hj
            exact hWait j op hj hP
          · subst hij
            rw [List.getElem?_set_self (getq_lt heq)] at hj
            injection hj with hj
            subst hj
            simp [isRHold] at hP
          · rw [List.getElem?_set_ne hij] at hj
            exact hRLt j op hj hP
          · subst hij
            rw [List.getElem?_set_self (getq_lt heq)] at hj
            injection hj with hj
            subst hj
            exact ⟨by simp only [ThreadOp.ticket]; omega, by omega⟩
          · rw [List.getElem?_set_ne hij] at hj
            have e1 := hT j op hj
            have l1 := getq_lt hj
            obtain ⟨hx1, hx2⟩ := hWEq j op hj hP
            exact absurd rfl (by omega : ¬ (0 : Nat) = 0)
        case isFalse => exact Option.noConfusion h
      all_goals exact Option.noConfusion h
  | relR i =>
      simp only [execStep] at h
      split at h
      case _ t heq =>
        cases h
        have hpos := countP_pos_of_getq heq (show isRHold (ThreadOp.rhold t) = true from rfl)
        refine ⟨hcnt', ?_, ?_, ?_⟩ <;> intro j op hj hP <;> dsimp only <;>
          by_cases hij : i = j
        · subst hij
          rw [List.getElem?_set_self (getq_lt heq)] at hj
          injection hj with hj
          subst hj
          simp [isWaitOp] at hP
        · rw [List.getElem?_set_ne hij] at hj
          exact hWait j op hj hP
        · subst hij
          rw [List.getElem?_set_self (getq_lt heq)] at hj
          injection hj with hj
          subst hj
          simp [isRHold] at hP
        · rw [List.getElem?_set_ne hij] at hj
          exact hRLt j op hj hP
        · subst hij
          rw [List.getElem?_set_self (getq_lt heq)] at hj
          injection hj with hj
          subst hj
          simp [isWHold] at hP
        · rw [List.getElem?_set_ne hij] at hj
          obtain ⟨hx1, hx2⟩ := hWEq j op hj hP
          exact absurd rfl (by omega : ¬ (0 : Nat) = 0)
      all_goals exact Option.noConfusion h
  | relW i =>
      simp only [execStep] at h
      split at h
      case _ t heq =>
        cases h
        have et := hT i _ heq
        have lt1 := getq_lt heq
        simp only [ThreadOp.ticket] at et
        obtain ⟨hq1, hq2⟩ := hWEq i _ heq (by simp [isWHold])
        simp only [ThreadOp.ticket] at hq1
        refine ⟨hcnt', ?_, ?_, ?_⟩ <;> intro j op hj hP <;> dsimp only <;>
          by_cases hij : i = j
        · subst hij
          rw [List.getElem?_set_self (getq_lt heq)] at hj
          injection hj with hj
          subst hj
          simp [isWaitOp] at hP
        · rw [List.getElem?_set_ne hij] at hj
          have e1 := hT j op hj
          have l1 := getq_lt hj
          have := hWait j op hj hP
          omega
        · subst hij
          rw [List.getElem?_set_self (getq_lt heq)] at hj
          injection hj with hj
          subst hj
          simp [isRHold] at hP
        · rw [List.getElem?_set_ne hij] at hj
          have := countP_pos_of_getq hj hP
          exact absurd rfl (by omega : ¬ (0 : Nat) = 0)
        · subst hij
          rw [List.getElem?_set_self (getq_lt heq)] at hj
          injection hj with hj
          subst hj
          simp [isWHold] at hP
        · rw [List.getElem?_set_ne hij] at hj
          have e1 := hT j op hj
          have l1 := getq_lt hj
          obtain ⟨hx1, hx2⟩ := hWEq j op hj hP
          exact absurd rfl (by omega : ¬ (0 : Nat) = 0)
      all_goals exact Option.noConfusion h

theorem invFull_init : InvFull init0 := by
  refine ⟨invCount_init, ?_, ?_, ?_⟩ <;> intro i op h <;> simp [init0] at h

theorem execStepB_eq {a : LAction} {c c' : Conf} (h : execStepB a c = some c') :
    execStep a c = some c' ∧ activeCount c' ≤ 65535 := by
  unfold execStepB at h
  cases he : execStep a c with
  | none => rw [he] at h; exact Option.noConfusion h
  | some c2 =>
      rw [he] at h
      simp only [Option.some_bind] at h
      split at h
      · injection h with h
        subst h
        exact ⟨rfl, by assumption⟩
      · exact Option.noConfusion h

theorem runB_inv : ∀ (as : List LAction) (c c' : Conf),
    InvFull c → activeCount c ≤ 65535 → runB as c = some c' →
    InvFull c' ∧ activeCount c' ≤ 65535 := by
  intro as
  induction as with
  | nil =>
      intro c c' hI hB h
      simp only [runB, Option.some.injEq] at h
      exact h ▸ ⟨hI, hB⟩
  | cons a as ih =>
      intro c c' hI hB h
      simp only [runB] at h
      cases hb : execStepB a c with
      | none => rw [hb] at h; exact Option.noConfusion h
      | some c1 =>
          rw [hb] at h
          simp only [Option.some_bind] at h
          obtain ⟨he, hb1⟩ := execStepB_eq hb
          exact ih c1 c' (invFull_step hI hB he) hb1 h

theorem breach_inv {c : Conf} (h : BReach c) :
    InvFull c ∧ activeCount c ≤ 65535 := by
  obtain ⟨as, hrun⟩ := h
  exact runB_inv as init0 c invFull_init (by simp [activeCount, init0]) hrun

/-- C1 amended (mutual exclusion under the documented no-wrap proviso):
for every interleaving of callers in which fewer than 2^16 operations are
ever simultaneously in flight, no write acquisition (exit of
__wt_writelock's spin loop, or try_write returning success) completes
while any reader or writer still holds the lock, and no read acquisition
(read, read_spin, or try_read returning success) completes while a writer
holds the lock. -/
theorem mutex_bounded (c : Conf) (a : LAction) (c' : Conf) (hb : BReach c)
    (hstep : execStep a c = some c') :
    (writeAcqA a = true → NoHolder c) ∧ (readAcqA a = true → NoWriterHold c) := by
  obtain ⟨hI, hB⟩ := breach_inv hb
  obtain ⟨l, ops⟩ := c
  cases a with
  | startR => exact ⟨fun hx => absurd hx (by simp [writeAcqA]),
                     fun hx => absurd hx (by simp [readAcqA])⟩
  | startW => exact ⟨fun hx => absurd hx (by simp [writeAcqA]),
                     fun hx => absurd hx (by simp [readAcqA])⟩
  | relR i => exact ⟨fun hx => absurd hx (by simp [writeAcqA]),
                     fun hx => absurd hx (by simp [readAcqA])⟩
  | relW i => exact ⟨fun hx => absurd hx (by simp [writeAcqA]),
                     fun hx => absurd hx (by simp [readAcqA])⟩
  | acqR i =>
      refine ⟨fun hx => absurd hx (by simp [writeAcqA]), fun _ => ?_⟩
      simp only [execStep] at hstep
      split at hstep
      case _ t heq =>
        split at hstep
        case isTrue hg => exact acqR_noWriterHold hI hB heq hg
        case isFalse => exact Option.noConfusion hstep
      all_goals exact Option.noConfusion hstep
  | tryR =>
      refine ⟨fun hx => absurd hx (by simp [writeAcqA]), fun _ => ?_⟩
      simp only [execStep] at hstep
      split at hstep
      case isTrue hg => exact tryR_noWriterHold hI hB hg
      case isFalse => exact Option.noConfusion hstep
  | acqW i =>
      refine ⟨fun _ => ?_, fun hx => absurd hx (by simp [readAcqA])⟩
      simp only [execStep] at hstep
      split at hstep
      case _ t heq =>
        split at hstep
        case isTrue hg => exact acqW_noHolder hI hB heq hg
        case isFalse => exact Option.noConfusion hstep
      all_goals exact Option.noConfusion hstep
  | tryW =>
      refine ⟨fun _ => ?_, fun hx => absurd hx (by simp [readAcqA])⟩
      simp only [execStep] at hstep
      split at hstep
      case isTrue hg => exact tryW_noHolder hI hB hg
      case isFalse => exact Option.noConfusion hstep

theorem mutex_bounded_witness : isHold (ThreadOp.wwait 0) = false := by
  have h := mutex_bounded ⟨⟨0, 0, 1, 1⟩, [ThreadOp.wwait 0]⟩ (LAction.acqW 0)
    ⟨⟨0, 0, 1, 1⟩, [ThreadOp.whold 0]⟩ ⟨[LAction.startW], rfl⟩ rfl
  exact (h.1 rfl) (ThreadOp.wwait 0) (by simp)

/-- Chain of thread operations with ghost tickets n+k-1 down to n (newest
first), as produced by k consecutive ticket issues starting at ticket n. -/
def opChain (f : Nat → ThreadOp) : Nat → Nat → List ThreadOp
  | 0, _ => []
  | k + 1, n => f (n + k) :: opChain f k n

theorem opChain_length (f : Nat → ThreadOp) : ∀ k n, (opChain f k n).length = k := by
  intro k
  induction k with
  | zero => intro n; rfl
  | succ m ih => intro n; simp [opChain, ih]

theorem opChain_snoc (f : Nat → ThreadOp) :
    ∀ k n, opChain f (k + 1) n = opChain f k (n + 1) ++ [f n] := by
  intro k
  induction k with
  | zero => intro n; simp [opChain]
  | succ m ih =>
      intro n
      have h1 : opChain f (m + 1 + 1) n = f (n + (m + 1)) :: opChain f (m + 1) n := rfl
      rw [h1, ih n]
      have h2 : opChain f (m + 1) (n + 1) = f ((n + 1) + m) :: opChain f m (n + 1) := rfl
      rw [h2]
      rw [show n + (m + 1) = (n + 1) + m by omega]
      rfl

theorem opChain_getq (f : Nat → ThreadOp) :
    ∀ k i n, i < k → (opChain f k n)[i]? = some (f (n + k - 1 - i)) := by
  intro k
  induction k with
  | zero => intro i n h; omega
  | succ m ih =>
      intro i n h
      match i with
      | 0 =>
          show (f (n + m) :: opChain f m n)[0]? = _
          rw [List.getElem?_cons_zero]
          rw [show n + (m + 1) - 1 - 0 = n + m by omega]
      | j + 1 =>
          show (f (n + m) :: opChain f m n)[j + 1]? = _
          rw [List.getElem?_cons_succ, ih j n (by omega)]
          rw [show n + (m + 1) - 1 - (j + 1) = n + m - 1 - j by omega]

theorem run_append : ∀ (l1 l2 : List LAction) (c : Conf),
    run (l1 ++ l2) c = (run l1 c).bind (run l2) := by
  intro l1
  induction l1 with
  | nil => intro l2 c; simp [run]
  | cons a l1 ih =>
      intro l2 c
      show (execStep a c).bind (run (l1 ++ l2)) = ((execStep a c).bind (run l1)).bind (run l2)
      cases execStep a c with
      | none => rfl
      | some c1 => simp only [Option.some_bind]; exact ih l2 c1

theorem run_rep_startW : ∀ (k n wa : Nat) (ops : List ThreadOp),
    run (List.replicate k .startW) ⟨⟨0, 0, n, wa⟩, ops⟩ =
      some ⟨⟨0, 0, n + k, wa + k⟩, opChain .wwait k n ++ ops⟩ := by
  intro k
  induction k with
  | zero => intro n wa ops; simp [run, opChain]
  | succ m ih =>
      intro n wa ops
      rw [List.replicate_succ]
      show (execStep .startW ⟨⟨0, 0, n, wa⟩, ops⟩).bind (run (List.replicate m .startW)) = _
      rw [show execStep .startW ⟨⟨0, 0, n, wa⟩, ops⟩ =
            some ⟨⟨0, 0, n + 1, wa + 1⟩, .wwait n :: ops⟩ from rfl]
      rw [Option.some_bind, ih (n + 1) (wa + 1) (.wwait n :: ops)]
      rw [show n + 1 + m = n + (m + 1) by omega, show wa + 1 + m = wa + (m + 1) by omega]
      rw [opChain_snoc, List.append_assoc, List.singleton_append]

def cWrapA : Conf := ⟨⟨0, 0, 65536, 65536⟩, opChain .wwait 65536 0⟩

def cWrapB : Conf := ⟨⟨0, 0, 65536, 65536⟩, (opChain .wwait 65536 0).set 65535 (.whold 0)⟩

def cWrapC : Conf :=
  ⟨⟨0, 0, 65537, 65537⟩, .wwait 65536 :: (opChain .wwait 65536 0).set 65535 (.whold 0)⟩

theorem execStep_acqW {l : LockState} {ops : List ThreadOp} {i t : Nat}
    (hget : ops[i]? = some (.wwait t)) (hg : t % 65536 = l.writers % 65536) :
    execStep (.acqW i) ⟨l, ops⟩ = some ⟨l, ops.set i (.whold t)⟩ := by
  simp only [execStep, hget]
  simp [hg]

theorem step_wrapA : execStep (.acqW 65535) cWrapA = some cWrapB := by
  have hget : (opChain ThreadOp.wwait 65536 0)[65535]? = some (ThreadOp.wwait 0) := by
    have h := opChain_getq ThreadOp.wwait 65536 65535 0 (by omega)
    rw [show 0 + 65536 - 1 - 65535 = 0 by omega] at h
    exact h
  exact execStep_acqW hget rfl

theorem step_wrapB : execStep .startW cWrapB = some cWrapC := rfl

theorem reach_wrapC : Reach cWrapC := by
  refine ⟨List.replicate 65536 .startW ++ [.acqW 65535, .startW], ?_⟩
  rw [run_append]
  have h0 : run (List.replicate 65536 LAction.startW) init0 = some cWrapA := by
    have h := run_rep_startW 65536 0 0 []
    rw [List.append_nil] at h
    exact h
  rw [h0, Option.some_bind]
  show (execStep (.acqW 65535) cWrapA).bind (run [LAction.startW]) = some cWrapC
  rw [step_wrapA, Option.some_bind]
  show (execStep .startW cWrapB).bind (run []) = some cWrapC
  rw [step_wrapB]
  rfl

/-- Claim C1 exactly as stated: over every interleaving of callers, with
no bound on the number of operations in flight, no write acquisition
completes while any reader or writer still holds the lock and no read
acquisition completes while a writer holds the lock. -/
def mutexClaim : Prop :=
  ∀ (c : Conf) (a : LAction) (c' : Conf), Reach c → execStep a c = some c' →
    (writeAcqA a = true → NoHolder c) ∧ (readAcqA a = true → NoWriterHold c)

/-- C1 counterexample: with 2^16 writers simultaneously in line the ticket
counter wraps, and a second writer whose wrapped ticket collides with the
exclusive holder's ticket completes its acquisition while the first
writer still holds the lock — the double-grant hazard the source
documents at mtx_rw.c lines 104-112. -/
theorem mutex_unbounded_cx : ¬ mutexClaim := by
  intro h
  have hget0 : cWrapC.ops[0]? = some (ThreadOp.wwait 65536) := by
    show (ThreadOp.wwait 65536 ::
      (opChain ThreadOp.wwait 65536 0).set 65535 (ThreadOp.whold 0))[0]? = _
    rw [List.getElem?_cons_zero]
  have hstep : execStep (.acqW 0) cWrapC =
      some ⟨cWrapC.lock, cWrapC.ops.set 0 (.whold 65536)⟩ :=
    execStep_acqW hget0 (by norm_num)
  have hno := (h cWrapC (.acqW 0) _ reach_wrapC hstep).1 rfl
  have hmem : ThreadOp.whold 0 ∈ cWrapC.ops := by
    show ThreadOp.whold 0 ∈ ThreadOp.wwait 65536 ::
      (opChain ThreadOp.wwait 65536 0).set 65535 (ThreadOp.whold 0)
    refine List.mem_cons_of_mem _ ?_
    have hq : ((opChain ThreadOp.wwait 65536 0).set 65535 (ThreadOp.whold 0))[65535]? =
        some (ThreadOp.whold 0) := by
      apply List.getElem?_set_self
      rw [opChain_length]
      omega
    exact mem_of_getq hq
  have hcontr := hno (ThreadOp.whold 0) hmem
  simp [isHold, isWHold] at hcontr

theorem execStep_tryR {w r n wa : Nat} {ops : List ThreadOp}
    (hg : r % 65536 = n % 65536) :
    execStep .tryR ⟨⟨w, r, n, wa⟩, ops⟩ =
      some ⟨⟨w, r + 1, n + 1, wa⟩, .rhold n :: ops⟩ := by
  simp [execStep, hg]

theorem run_rep_tryR : ∀ (k r wa : Nat) (ops : List ThreadOp),
    run (List.replicate k .tryR) ⟨⟨0, r, r, wa⟩, ops⟩ =
      some ⟨⟨0, r + k, r + k, wa⟩, opChain .rhold k r ++ ops⟩ := by
  intro k
  induction k with
  | zero => intro r wa ops; simp [run, opChain]
  | succ m ih =>
      intro r wa ops
      rw [List.replicate_succ]
      show (execStep .tryR ⟨⟨0, r, r, wa⟩, ops⟩).bind (run (List.replicate m .tryR)) = _
      rw [execStep_tryR rfl, Option.some_bind, ih (r + 1) wa (.rhold r :: ops)]
      rw [show r + 1 + m = r + (m + 1) by omega]
      rw [opChain_snoc, List.append_assoc, List.singleton_append]

def cNest : Conf := ⟨⟨0, 65536, 65536, 0⟩, opChain .rhold 65536 0⟩

theorem seqreach_cNest : SeqReach cNest := by
  refine ⟨List.replicate 65536 .tryR, ?_, ?_⟩
  · intro a ha
    rw [List.eq_of_mem_replicate ha]
    rfl
  · have h := run_rep_tryR 65536 0 0 []
    rw [List.append_nil] at h
    exact h

/-- Claim C7 exactly as stated: is_locked returns true iff
`writers != next` or `readers != next`; equivalently, over well-formed
sequential operation sequences it returns true exactly when some thread
is between a successful acquire and the completion of its matching
release (a live holder exists), and it is false on the initialized
state. -/
def islockedClaim : Prop :=
  (∀ l : LockState,
    wt_rwlock_islocked l = true ↔ (l.writers ≠ l.next ∨ l.readers ≠ l.next)) ∧
  wt_rwlock_islocked wt_rwlock_init = false ∧
  ∀ c : Conf, SeqReach c →
    (wt_rwlock_islocked (proj c.lock) = true ↔ ∃ op ∈ c.ops, isHold op = true)

/-- C7 counterexample: after 2^16 nested try_read acquisitions the ticket
counters wrap back to the all-zero word, so is_locked reports false while
2^16 readers still hold the lock; the equivalence with "between acquire
and release" fails once a wrap occurs. -/
theorem islocked_cx : ¬ islockedClaim := by
  intro hclaim
  obtain ⟨h1, h2, h3⟩ := hclaim
  have h := h3 cNest seqreach_cNest
  have hfalse : wt_rwlock_islocked (proj cNest.lock) = false := by
    show wt_rwlock_islocked (proj ⟨0, 65536, 65536, 0⟩) = false
    decide
  have hex : ∃ op ∈ cNest.ops, isHold op = true := by
    refine ⟨ThreadOp.rhold 65535, ?_, rfl⟩
    show ThreadOp.rhold 65535 ∈ opChain ThreadOp.rhold 65536 0
    have hq := opChain_getq ThreadOp.rhold 65536 0 0 (by omega)
    rw [show 0 + 65536 - 1 - 0 = 65535 by omega] at hq
    exact mem_of_getq hq
  have htrue := h.mpr hex
  rw [htrue] at hfalse
  exact Bool.noConfusion hfalse

theorem step_no_wait {a : LAction} {c c' : Conf} (ha : seqAction a = true)
    (hw : ∀ op ∈ c.ops, isWaitOp op = false) (h : execStep a c = some c') :
    ∀ op ∈ c'.ops, isWaitOp op = false := by
  obtain ⟨l, ops⟩ := c
  cases a with
  | startR => simp [seqAction] at ha
  | startW => simp [seqAction] at ha
  | acqR i => simp [seqAction] at ha
  | acqW i => simp [seqAction] at ha
  | tryR =>
      simp only [execStep] at h
      split at h
      · cases h
        intro op hm
        rcases List.mem_cons.mp hm with hop | hop
        · rw [hop]; rfl
        · exact hw op hop
      · exact Option.noConfusion h
  | tryW =>
      simp only [execStep] at h
      split at h
      · cases h
        intro op hm
        rcases List.mem_cons.mp hm with hop | hop
        · rw [hop]; rfl
        · exact hw op hop
      · exact Option.noConfusion h
  | relR i =>
      simp only [execStep] at h
      split at h
      case _ t heq =>
        cases h
        intro op hm
        obtain ⟨j, hj⟩ := List.mem_iff_getElem?.mp hm
        by_cases hij : i = j
        · subst hij
          rw [List.getElem?_set_self (getq_lt heq)] at hj
          injection hj with hj
          rw [← hj]
          rfl
        · rw [List.getElem?_set_ne hij] at hj
          exact hw op (mem_of_getq hj)
      all_goals exact Option.noConfusion h
  | relW i =>
      simp only [execStep] at h
      split at h
      case _ t heq =>
        cases h
        intro op hm
        obtain ⟨j, hj⟩ := List.mem_iff_getElem?.mp hm
        by_cases hij : i = j
        · subst hij
          rw [List.getElem?_set_self (getq_lt heq)] at hj
          injection hj with hj
          rw [← hj]
          rfl
        · rw [List.getElem?_set_ne hij] at hj
          exact hw op (mem_of_getq hj)
      all_goals exact Option.noConfusion h

theorem runB_no_wait : ∀ (as : List LAction) (c c' : Conf),
    (∀ a ∈ as, seqAction a = true) → (∀ op ∈ c.ops, isWaitOp op = false) →
    runB as c = some c' → ∀ op ∈ c'.ops, isWaitOp op = false := by
  intro as
  induction as with
  | nil =>
      intro c c' _ hw h
      simp only [runB, Option.some.injEq] at h
      exact h ▸ hw
  | cons a as ih =>
      intro c c' hseq hw h
      simp only [runB] at h
      cases hb : execStepB a c with
      | none => rw [hb] at h; exact Option.noConfusion h
      | some c1 =>
          rw [hb] at h
          simp only [Option.some_bind] at h
          obtain ⟨he, _⟩ := execStepB_eq hb
          exact ih c1 c' (fun x hx => hseq x (List.mem_cons_of_mem a hx))
            (step_no_wait (hseq a (List.mem_cons_self a as)) hw he) h

/-- C7 amended: is_locked returns true iff `writers != next` or
`readers != next` (and is false on the initialized state); and over
well-formed sequential operation sequences that keep fewer than 2^16
operations in flight (no ticket wrap), it returns true exactly when some
thread is between a successful acquire and the completion of its matching
release. -/
theorem islocked_spec :
    (∀ l : LockState,
      wt_rwlock_islocked l = true ↔ (l.writers ≠ l.next ∨ l.readers ≠ l.next)) ∧
    wt_rwlock_islocked wt_rwlock_init = false ∧
    ∀ c : Conf, SeqBReach c →
      (wt_rwlock_islocked (proj c.lock) = true ↔ ∃ op ∈ c.ops, isHold op = true) := by
  refine ⟨?_, rfl, ?_⟩
  · intro l
    simp [wt_rwlock_islocked]
  · intro c hc
    obtain ⟨as, hseq, hrun⟩ := hc
    have hbr : BReach c := ⟨as, hrun⟩
    obtain ⟨hI, hB⟩ := breach_inv hbr
    have hNoWait : ∀ op ∈ c.ops, isWaitOp op = false :=
      runB_no_wait as init0 c hseq (by intro op h; simp [init0] at h) hrun
    have hwin := invCount_window hI.cnt
    have hW := hI.cnt.writersEq
    have hR := hI.cnt.readersEq
    have hcrh : c.ops.countP isRHold ≤ activeCount c := by
      unfold activeCount
      refine List.countP_mono_left ?_
      intro op _ hp
      cases op <;> simp_all [isRHold, isActiveOp, isDoneOp]
    have hiff1 : wt_rwlock_islocked (proj c.lock) = true ↔ ¬ (activeCount c = 0) := by
      show ((c.lock.writers % 65536 != c.lock.next % 65536) ||
            (c.lock.readers % 65536 != c.lock.next % 65536)) = true ↔ _
      simp only [Bool.or_eq_true, bne_iff_ne, ne_eq]
      omega
    have hiff2 : ¬ (activeCount c = 0) ↔ ∃ op ∈ c.ops, isHold op = true := by
      constructor
      · intro hpos
        have : 0 < c.ops.countP isActiveOp := by unfold activeCount at hpos; omega
        obtain ⟨op, hm, hact⟩ := List.countP_pos_iff.mp this
        refine ⟨op, hm, ?_⟩
        have hnw := hNoWait op hm
        cases op <;> simp_all [isWaitOp, isActiveOp, isDoneOp, isHold, isRHold, isWHold]
      · intro hex
        obtain ⟨op, hm, hh⟩ := hex
        have : 0 < c.ops.countP isActiveOp := by
          refine List.countP_pos_iff.mpr ⟨op, hm, ?_⟩
          cases op <;> simp_all [isHold, isRHold, isWHold, isActiveOp, isDoneOp]
        unfold activeCount
        omega
    exact hiff1.trans hiff2

theorem islocked_spec_witness :
    wt_rwlock_islocked (proj init0.lock) = true ↔ ∃ op ∈ init0.ops, isHold op = true :=
  islocked_spec.2.2 init0 ⟨[], by simp, rfl⟩
